import Mathlib

/-!
# A verification model of the `small` string library (`src/string.rs`)

`small::String` is a UTF-8 string that stores up to 23 bytes inline
("on the stack") and permanently escalates to a heap buffer once it grows
past that threshold.  This file gives a shallow embedding of the library:
byte buffers are `List Nat` (each entry a byte value), machine pointers are
replaced by the buffer contents they point to, the allocator returns
zero-filled buffers (uninitialised memory is never observable through the
public API), and Rust panics are modelled by an explicit `Outcome.panic`
value.  Every definition is translated directly from `src/string.rs`.
-/

namespace Small

/-- Byte-wise overwrite: `writeBytes buf off src` models
`ptr::copy_nonoverlapping(src, buf + off, src.len())`, i.e. the bytes of
`src` replace `buf[off .. off + src.length]`. -/
def writeBytes (buf : List Nat) (off : Nat) (src : List Nat) : List Nat :=
  buf.take off ++ src ++ buf.drop (off + src.length)

/-- A fresh allocation of `n` bytes (`alloc::alloc(n)`); the model fills
uninitialised memory with zeros. -/
def allocBuf (n : Nat) : List Nat :=
  List.replicate n 0

/-- `alloc::realloc(data, oldCap, newCap)`: the first
`min oldCap newCap` bytes are preserved, fresh bytes are uninitialised
(zeros in the model). -/
def reallocBuf (d : List Nat) (newCap : Nat) : List Nat :=
  d.take newCap ++ List.replicate (newCap - d.length) 0

/-- Iteration core of the smallest-power-of-two computation: starting from
the power `cur`, keep doubling until it reaches `n` (fuel-bounded so the
definition is structurally recursive and computable). -/
def nextPow2Go (n : Nat) : Nat → Nat → Nat
  | 0, cur => cur
  | fuel + 1, cur => if n ≤ cur then cur else nextPow2Go n fuel (2 * cur)

/-- The smallest power of two that is ≥ `n` (`n.next_power_of_two()` in
Rust, which maps 0 to 1). -/
def nextPow2 (n : Nat) : Nat :=
  nextPow2Go n n 1

/-- `usize::checked_next_power_of_two` on a 64-bit target: `none` exactly
when the next power of two would not fit in `usize`
(that is, when `n > 2 ^ 63`). -/
def checkedNextPowerOfTwo (n : Nat) : Option Nat :=
  if n ≤ 2 ^ 63 then some (nextPow2 n) else none

/-- The bulk growth target used by `push_str`, `reserve` and `From<&str>`:
`match n.checked_next_power_of_two() { Some(x) => x, None => n }`. -/
def growTarget (n : Nat) : Nat :=
  (checkedNextPowerOfTwo n).getD n

/-- `cap` is the smallest power of two that is ≥ `n`. -/
def IsSmallestPow2Ge (cap n : Nat) : Prop :=
  (∃ k, cap = 2 ^ k) ∧ n ≤ cap ∧ ∀ m, n ≤ 2 ^ m → cap ≤ 2 ^ m

/-! ## UTF-8 model

The library delegates UTF-8 validation and decoding to the host standard
library (`std::str::from_utf8`, `str::chars`).  These are external
collaborators of the repository; the definitions below model standard
UTF-8 (1-4 byte sequences, no overlong encodings, no surrogates, scalar
values below 0x110000), matching the host validator's semantics including
its `valid_up_to` offset. -/

/-- Is `b` a UTF-8 continuation byte (`0x80 ..= 0xBF`)? -/
def contByte (b : Nat) : Bool :=
  decide (0x80 ≤ b) && decide (b < 0xC0)

/-- Is `c` a Unicode scalar value (the invariant of Rust's `char`)? -/
def isValidScalar (c : Nat) : Bool :=
  decide (c < 0xD800) || (decide (0xE000 ≤ c) && decide (c < 0x110000))

/-- `char::len_utf8`: the width in bytes of the UTF-8 encoding of `c`. -/
def utf8Len (c : Nat) : Nat :=
  if c < 0x80 then 1 else if c < 0x800 then 2 else if c < 0x10000 then 3 else 4

/-- `char::encode_utf8`: the UTF-8 bytes of the scalar value `c`. -/
def encodeChar (c : Nat) : List Nat :=
  if c < 0x80 then [c]
  else if c < 0x800 then [0xC0 + c / 64, 0x80 + c % 64]
  else if c < 0x10000 then
    [0xE0 + c / 4096, 0x80 + c / 64 % 64, 0x80 + c % 64]
  else
    [0xF0 + c / 0x40000, 0x80 + c / 4096 % 64, 0x80 + c / 64 % 64, 0x80 + c % 64]

/-- UTF-8 encoding of a sequence of scalar values. -/
def encodeList : List Nat → List Nat
  | [] => []
  | c :: cs => encodeChar c ++ encodeList cs

/-- Decode the first scalar value of a UTF-8 byte sequence, returning the
value and its byte width, or `none` if the sequence does not start with a
well-formed character. -/
def utf8DecodeFirst : List Nat → Option (Nat × Nat)
  | [] => none
  | b0 :: rest =>
    if b0 < 0x80 then some (b0, 1)
    else if b0 < 0xC2 then none
    else if b0 < 0xE0 then
      match rest with
      | b1 :: _ => if contByte b1 then some ((b0 - 0xC0) * 64 + (b1 - 0x80), 2) else none
      | _ => none
    else if b0 < 0xF0 then
      match rest with
      | b1 :: b2 :: _ =>
        if contByte b1 && contByte b2 then
          let c := (b0 - 0xE0) * 4096 + (b1 - 0x80) * 64 + (b2 - 0x80)
          if 0x800 ≤ c ∧ ¬(0xD800 ≤ c ∧ c < 0xE000) then some (c, 3) else none
        else none
      | _ => none
    else if b0 < 0xF5 then
      match rest with
      | b1 :: b2 :: b3 :: _ =>
        if contByte b1 && contByte b2 && contByte b3 then
          let c := (b0 - 0xF0) * 0x40000 + (b1 - 0x80) * 4096 + (b2 - 0x80) * 64 + (b3 - 0x80)
          if 0x10000 ≤ c ∧ c < 0x110000 then some (c, 4) else none
        else none
      | _ => none
    else none

/-- Decode a whole byte sequence into its scalar values (fuel-bounded; the
fuel `bs.length` always suffices because every character is at least one
byte wide).  On ill-formed input the decoding stops early; theorems about
it always carry a well-formedness hypothesis. -/
def utf8CharsAux : Nat → List Nat → List Nat
  | 0, _ => []
  | _ + 1, [] => []
  | fuel + 1, bs =>
    match utf8DecodeFirst bs with
    | none => []
    | some (c, w) => c :: utf8CharsAux fuel (bs.drop w)

/-- The scalar values of a UTF-8 byte sequence (`str::chars`). -/
def utf8Chars (bs : List Nat) : List Nat :=
  utf8CharsAux bs.length bs

/-- Validation core: returns `none` when the remaining bytes are
well-formed UTF-8, and `some pos` with the absolute offset of the first
invalid byte otherwise. -/
def utf8ValidateAux : Nat → List Nat → Nat → Option Nat
  | 0, _, _ => none
  | _ + 1, [], _ => none
  | fuel + 1, bs, pos =>
    match utf8DecodeFirst bs with
    | none => some pos
    | some (_, w) => utf8ValidateAux fuel (bs.drop w) (pos + w)

/-- Model of `std::str::from_utf8`'s verdict: `none` when `bs` is valid
UTF-8, otherwise `some i` where `i` is `Utf8Error::valid_up_to`, the
offset of the first invalid byte. -/
def utf8Validate (bs : List Nat) : Option Nat :=
  utf8ValidateAux bs.length bs 0

/-- `bs` is well-formed UTF-8. -/
def ValidUtf8 (bs : List Nat) : Prop :=
  utf8Validate bs = none

instance (bs : List Nat) : Decidable (ValidUtf8 bs) := by
  unfold ValidUtf8; infer_instance

/-! ## The data model (`Inner` and `String` from `src/string.rs`) -/

/-- The storage representation: `Stack` holds the fixed 23-byte array by
value, `Heap` holds a capacity together with the heap buffer (the model
stores the pointed-to bytes in place of the raw pointer). -/
inductive Inner
  | Stack (data : List Nat)
  | Heap (capacity : Nat) (data : List Nat)
  deriving DecidableEq

/-- Replace the bytes behind the active representation, keeping the
variant and the capacity (models a write through `as_mut_ptr`). -/
def Inner.setData : Inner → List Nat → Inner
  | .Stack _, b => .Stack b
  | .Heap cap _, b => .Heap cap b

/-- `small::String`: a length together with the active storage. -/
structure String where
  len : Nat
  inner : Inner
  deriving DecidableEq

/-- A `std::vec::Vec<u8>` at its interface boundary: the initialised
bytes plus the capacity of its allocation (`data.length ≤ capacity` for
every vector the host can actually produce). -/
structure RustVec where
  data : List Nat
  capacity : Nat
  deriving DecidableEq

/-- The error of `String::from_utf8`: the rejected vector (ownership
returned to the caller) plus the host `Utf8Error`, modelled by its
`valid_up_to` offset. -/
structure FromUtf8Error where
  bytes : RustVec
  validUpTo : Nat
  deriving DecidableEq

/-- `FromUtf8Error::into_bytes`: hand the rejected vector back. -/
def FromUtf8Error.into_bytes (e : FromUtf8Error) : RustVec :=
  e.bytes

/-- `FromUtf8Error::utf8_error().valid_up_to()`. -/
def FromUtf8Error.valid_up_to (e : FromUtf8Error) : Nat :=
  e.validUpTo

/-- The spec's error taxonomy for recoverable errors (`InvalidArgument`). -/
inductive ErrKind
  | invalidArgument
  deriving DecidableEq

/-- Result of a fallible operation: a value, a recoverable error
surfaced to the caller, or a Rust panic (assertion failure / contract
violation, which unwinds instead of returning a value). -/
inductive Outcome (α : Type)
  | ok (a : α)
  | err (e : ErrKind)
  | panic
  deriving DecidableEq

/-- Extract the value of a non-panicking outcome. -/
def Outcome.getD {α : Type} : Outcome α → α → α
  | .ok a, _ => a
  | _, d => d

/-! ## Accessors -/

/-- `String::capacity`: 23 while on the stack, the heap buffer's capacity
once escalated. -/
def String.capacity (s : String) : Nat :=
  match s.inner with
  | .Stack _ => 23
  | .Heap cap _ => cap

/-- `String::overflowed`: true iff the string is allocated on the heap. -/
def String.overflowed (s : String) : Bool :=
  match s.inner with
  | .Stack _ => false
  | .Heap _ _ => true

/-- The bytes behind the active representation (`as_ptr` dispatch). -/
def String.buf (s : String) : List Nat :=
  match s.inner with
  | .Stack d => d
  | .Heap _ d => d

/-- The logical content `bytes[0 .. len]` (`String::as_bytes`). -/
def String.logicalBytes (s : String) : List Nat :=
  s.buf.take s.len

/-- `str::is_char_boundary i` on the logical content: true at 0 and at the
length, and otherwise exactly when byte `i` is not a continuation byte. -/
def String.isCharBoundary (s : String) (i : Nat) : Bool :=
  if i = 0 then true
  else
    match s.logicalBytes.get? i with
    | none => decide (i = s.len)
    | some b => !contByte b

/-! ## Constructors -/

/-- `String::new`: length 0 on the stack, the array zero-initialised. -/
def String.new : String :=
  { len := 0, inner := .Stack (List.replicate 23 0) }

/-- `String::with_capacity`: `assert!(capacity != 0)` (a panic, not a
recoverable error), then an empty string directly on the heap with
exactly the requested capacity. -/
def String.with_capacity (capacity : Nat) : Outcome String :=
  if capacity ≠ 0 then
    .ok { len := 0, inner := .Heap capacity (allocBuf capacity) }
  else
    .panic

/-- `String::from_string` and `From<std::string::String>`: adopt the host
string's vector (pointer, length, capacity) directly as heap storage,
without copying or validating. -/
def String.from_string (v : RustVec) : String :=
  { len := v.data.length,
    inner := .Heap v.capacity (v.data ++ List.replicate (v.capacity - v.data.length) 0) }

/-- `From<&str>`: lengths up to 23 are copied into a fresh stack array;
longer inputs get a fresh heap buffer whose capacity is
`checked_next_power_of_two` of the length (falling back to the exact
length on overflow). -/
def String.fromStr (item : List Nat) : String :=
  if item.length ≤ 23 then
    { len := item.length,
      inner := .Stack (item ++ List.replicate (23 - item.length) 0) }
  else
    let cap := growTarget item.length
    { len := item.length,
      inner := .Heap cap (item ++ List.replicate (cap - item.length) 0) }

/-- `String::from_utf8`: validate, then `vec.into_boxed_slice()` — which
shrinks the allocation to the vector's length — and adopt the boxed slice
as heap storage, so the resulting capacity equals the length.  On failure
the vector and the offset of the first invalid byte are returned. -/
def String.from_utf8 (v : RustVec) : Except FromUtf8Error String :=
  match utf8Validate v.data with
  | none => .ok { len := v.data.length, inner := .Heap v.data.length v.data }
  | some i => .error { bytes := v, validUpTo := i }

/-- `String::from_utf8_unchecked`: adopt the vector's allocation as heap
storage without validation or copying; length and capacity are taken from
the vector. -/
def String.from_utf8_unchecked (v : RustVec) : String :=
  { len := v.data.length,
    inner := .Heap v.capacity (v.data ++ List.replicate (v.capacity - v.data.length) 0) }

/-- `String::into_bytes`: on the stack, a fresh vector is built by
`extend_from_slice(data)`, copying the whole 23-byte array; on the heap,
`Vec::from_raw_parts(data, len, capacity)` transfers the allocation. -/
def String.into_bytes (s : String) : RustVec :=
  match s.inner with
  | .Stack d => { data := d, capacity := 23 }
  | .Heap cap d => { data := d.take s.len, capacity := cap }

/-! ## Mutations -/

/-- `String::truncate`: when `new_len ≤ len`, assert (panic otherwise)
that `new_len` is a character boundary and shorten; never deallocates. -/
def String.truncate (s : String) (new_len : Nat) : Outcome String :=
  if new_len ≤ s.len then
    if s.isCharBoundary new_len then .ok { s with len := new_len } else .panic
  else
    .ok s

/-- `String::clear`: `self.truncate(0)` (0 is always a boundary). -/
def String.clear (s : String) : String :=
  (s.truncate 0).getD s

/-- `String::pop`: decode and remove the last character of the logical
content; `none` on the empty string. -/
def String.pop (s : String) : Option Nat × String :=
  match (utf8Chars s.logicalBytes).getLast? with
  | none => (none, s)
  | some c => (some c, { s with len := s.len - utf8Len c })

/-- `String::remove`: slicing `self[idx..]` panics unless `idx` is a
boundary at or before the end; an empty slice (idx = len) panics
explicitly; otherwise the character at `idx` is decoded, the trailing
bytes are shifted left by its width, and the length shrinks. -/
def String.remove (s : String) (idx : Nat) : Outcome (Nat × String) :=
  if idx ≤ s.len ∧ s.isCharBoundary idx then
    match utf8DecodeFirst ((s.buf.drop idx).take (s.len - idx)) with
    | none => .panic
    | some (ch, w) =>
      let next := idx + w
      let buf' := writeBytes s.buf idx ((s.buf.drop next).take (s.len - next))
      .ok (ch, { len := s.len - w, inner := s.inner.setData buf' })
  else
    .panic

/-- Loop of `String::retain`: a single left-to-right pass with a read
cursor `idx` and a count `del` of removed bytes; kept characters are
moved `del` bytes to the left when `del > 0`.  Fuel-bounded (each
iteration advances `idx` by at least one byte, so `len` iterations
always suffice). -/
def retainLoop (p : Nat → Bool) : Nat → List Nat → Nat → Nat → Nat → List Nat × Nat
  | 0, buf, _, _, del => (buf, del)
  | fuel + 1, buf, len, idx, del =>
    if idx < len then
      match utf8DecodeFirst ((buf.drop idx).take (len - idx)) with
      | none => (buf, del)
      | some (ch, w) =>
        if ¬ p ch then
          retainLoop p fuel buf len (idx + w) (del + w)
        else if 0 < del then
          retainLoop p fuel (writeBytes buf (idx - del) ((buf.drop idx).take w)) len (idx + w) del
        else
          retainLoop p fuel buf len (idx + w) del
    else (buf, del)

/-- `String::retain`: run the pass over the active buffer, then subtract
the deleted byte count from the length.  The representation (and hence
the capacity) is untouched. -/
def String.retain (s : String) (p : Nat → Bool) : String :=
  let r := retainLoop p s.len s.buf s.len 0 0
  { len := s.len - r.2, inner := s.inner.setData r.1 }

/-- `String::push`: encode the character; on the stack it is appended in
place if the new length fits in 23 bytes and otherwise the string
escalates to a fresh 32-byte heap buffer; on the heap the capacity is
doubled (exactly `2 * capacity`) whenever the new length exceeds it. -/
def String.push (s : String) (c : Nat) : String :=
  let w := utf8Len c
  let chs := encodeChar c
  let newLen := s.len + w
  match s.inner with
  | .Stack d =>
    if newLen ≤ 23 then
      { len := newLen, inner := .Stack (writeBytes d s.len chs) }
    else
      { len := newLen,
        inner := .Heap 32 (writeBytes (writeBytes (allocBuf 32) 0 (d.take s.len)) s.len chs) }
  | .Heap cap d =>
    if newLen > cap then
      { len := newLen, inner := .Heap (cap * 2) (writeBytes (reallocBuf d (cap * 2)) s.len chs) }
    else
      { len := newLen, inner := .Heap cap (writeBytes d s.len chs) }

/-- `String::push_str`: append a byte slice; growth (both the heap growth
and the stack-to-heap escalation) uses the bulk next-power-of-two rule. -/
def String.push_str (s : String) (item : List Nat) : String :=
  let newLen := s.len + item.length
  match s.inner with
  | .Stack d =>
    if newLen ≤ 23 then
      { len := newLen, inner := .Stack (writeBytes d s.len item) }
    else
      let cap := growTarget newLen
      { len := newLen,
        inner := .Heap cap (writeBytes (writeBytes (allocBuf cap) 0 (d.take s.len)) s.len item) }
  | .Heap cap d =>
    if newLen > cap then
      let cap2 := growTarget newLen
      { len := newLen, inner := .Heap cap2 (writeBytes (reallocBuf d cap2) s.len item) }
    else
      { len := newLen, inner := .Heap cap (writeBytes d s.len item) }

/-- `String::reserve`: ensure `capacity ≥ len + additional`; a stack
string that already fits is untouched, otherwise the bulk growth rule is
applied (escalating if necessary). -/
def String.reserve (s : String) (additional : Nat) : String :=
  let newCap := s.len + additional
  match s.inner with
  | .Stack d =>
    if newCap ≤ 23 then s
    else
      let c := growTarget newCap
      { len := s.len, inner := .Heap c (writeBytes (allocBuf c) 0 (d.take s.len)) }
  | .Heap cap d =>
    if newCap > cap then
      { len := s.len, inner := .Heap (growTarget newCap) (reallocBuf d (growTarget newCap)) }
    else s

/-- `String::shrink_to_fit`: on the heap, reallocate down to exactly
`len` bytes (the variant stays `Heap`); a no-op on the stack. -/
def String.shrink_to_fit (s : String) : String :=
  match s.inner with
  | .Stack _ => s
  | .Heap _ d => { len := s.len, inner := .Heap s.len (reallocBuf d s.len) }

/-- `Clone for String`: a stack source is copied verbatim; a heap source
whose length fits inline is re-optimised into a fresh stack clone (the
source is untouched); a longer heap source gets a fresh heap buffer of
the same capacity holding a copy of the `len` live bytes. -/
def String.clone (s : String) : String :=
  { len := s.len,
    inner :=
      match s.inner with
      | .Stack d => .Stack d
      | .Heap cap d =>
        if s.len ≤ 23 then
          .Stack (d.take s.len ++ List.replicate (23 - s.len) 0)
        else
          .Heap cap (d.take s.len ++ List.replicate (cap - s.len) 0) }

/-! ## Mutation sequences (for the monotonic-escalation invariant) -/

/-- A public mutation of a `String`. -/
inductive Op
  | push (c : Nat)
  | push_str (item : List Nat)
  | pop
  | remove (idx : Nat)
  | retain (p : Nat → Bool)
  | truncate (n : Nat)
  | clear
  | reserve (n : Nat)
  | shrink_to_fit

/-- Apply one mutation.  A panicking call leaves the observable state
unchanged (every panic in the source fires before any mutation). -/
def applyOp (op : Op) (s : String) : String :=
  match op with
  | .push c => s.push c
  | .push_str item => s.push_str item
  | .pop => (s.pop).2
  | .remove idx =>
    match s.remove idx with
    | .ok (_, t) => t
    | _ => s
  | .retain p => s.retain p
  | .truncate n => (s.truncate n).getD s
  | .clear => s.clear
  | .reserve n => s.reserve n
  | .shrink_to_fit => s.shrink_to_fit

/-- Run a sequence of mutations left to right. -/
def runOps (ops : List Op) (s : String) : String :=
  ops.foldl (fun t op => applyOp op t) s

/-! ## Facts about the growth computation -/

theorem nextPow2Go_ge (n : Nat) :
    ∀ (fuel cur : Nat), n ≤ cur * 2 ^ fuel → n ≤ nextPow2Go n fuel cur := by
  intro fuel
  induction fuel with
  | zero => intro cur h; simpa [nextPow2Go] using h
  | succ f ih =>
    intro cur h
    rw [nextPow2Go]
    split
    · assumption
    · exact ih (2 * cur) (by calc n ≤ cur * 2 ^ (f + 1) := h
                               _ = 2 * cur * 2 ^ f := by ring)

theorem nextPow2Go_pow (n : Nat) :
    ∀ (fuel j : Nat), ∃ k, nextPow2Go n fuel (2 ^ j) = 2 ^ k := by
  intro fuel
  induction fuel with
  | zero => intro j; exact ⟨j, rfl⟩
  | succ f ih =>
    intro j
    rw [nextPow2Go]
    split
    · exact ⟨j, rfl⟩
    · have : 2 * 2 ^ j = 2 ^ (j + 1) := by ring
      rw [this]
      exact ih (j + 1)

theorem nextPow2Go_le (n : Nat) :
    ∀ (fuel j m : Nat), 2 ^ j ≤ 2 ^ m → n ≤ 2 ^ m → nextPow2Go n fuel (2 ^ j) ≤ 2 ^ m := by
  intro fuel
  induction fuel with
  | zero => intro j m hj _; simpa [nextPow2Go] using hj
  | succ f ih =>
    intro j m hj hn
    rw [nextPow2Go]
    split
    · exact hj
    · have hlt : 2 ^ j < 2 ^ m := by omega
      have hjm : j < m := by
        by_contra hc
        push_neg at hc
        have := Nat.pow_le_pow_right (by norm_num : 1 ≤ 2) hc
        omega
      have : 2 * 2 ^ j = 2 ^ (j + 1) := by ring
      rw [this]
      exact ih (j + 1) m (Nat.pow_le_pow_right (by norm_num) (by omega)) hn

theorem nextPow2_ge (n : Nat) : n ≤ nextPow2 n := by
  have h : n ≤ 1 * 2 ^ n := by
    have := Nat.lt_two_pow n
    omega
  exact nextPow2Go_ge n n 1 h

theorem nextPow2_pow (n : Nat) : ∃ k, nextPow2 n = 2 ^ k := by
  have h := nextPow2Go_pow n n 0
  simpa [nextPow2] using h

theorem nextPow2_le (n m : Nat) (h : n ≤ 2 ^ m) : nextPow2 n ≤ 2 ^ m := by
  have h0 : (2 : Nat) ^ 0 ≤ 2 ^ m := Nat.pow_le_pow_right (by norm_num) (Nat.zero_le m)
  have := nextPow2Go_le n n 0 m h0 h
  simpa [nextPow2] using this

theorem isSmallestPow2Ge_nextPow2 (n : Nat) : IsSmallestPow2Ge (nextPow2 n) n :=
  ⟨nextPow2_pow n, nextPow2_ge n, fun m h => nextPow2_le n m h⟩

theorem growTarget_eq_nextPow2 (n : Nat) (h : n ≤ 2 ^ 63) : growTarget n = nextPow2 n := by
  unfold growTarget checkedNextPowerOfTwo
  rw [if_pos h]
  rfl

/-! ## Facts about the UTF-8 encoding -/

theorem length_encodeChar (c : Nat) : (encodeChar c).length = utf8Len c := by
  unfold encodeChar utf8Len
  split_ifs <;> simp

theorem utf8Len_pos (c : Nat) : 1 ≤ utf8Len c := by
  unfold utf8Len
  split_ifs <;> omega

set_option maxRecDepth 4096 in
theorem utf8DecodeFirst_encodeChar (c : Nat) (hc : isValidScalar c = true) (rest : List Nat) :
    utf8DecodeFirst (encodeChar c ++ rest) = some (c, utf8Len c) := by
  simp only [isValidScalar, Bool.or_eq_true, Bool.and_eq_true, decide_eq_true_eq] at hc
  by_cases h1 : c < 0x80
  · simp [encodeChar, utf8Len, utf8DecodeFirst, h1]
  · by_cases h2 : c < 0x800
    · simp only [encodeChar, if_neg h1, if_pos h2, utf8Len, List.cons_append, List.nil_append]
      rw [utf8DecodeFirst]
      rw [if_neg (by omega), if_neg (by omega), if_pos (by omega)]
      simp only [contByte]
      rw [if_pos (by simp only [Bool.and_eq_true, decide_eq_true_eq]; omega)]
      congr 1
      congr 1
      omega
    · by_cases h3 : c < 0x10000
      · simp only [encodeChar, if_neg h1, if_neg h2, if_pos h3, utf8Len,
          List.cons_append, List.nil_append]
        rw [utf8DecodeFirst]
        rw [if_neg (by omega), if_neg (by omega), if_neg (by omega), if_pos (by omega)]
        simp only [contByte]
        rw [if_pos (by simp only [Bool.and_eq_true, decide_eq_true_eq]; omega)]
        rw [if_pos (by constructor <;> omega)]
        congr 1
        congr 1
        omega
      · have h4 : c < 0x110000 := by omega
        simp only [encodeChar, if_neg h1, if_neg h2, if_neg h3, utf8Len,
          List.cons_append, List.nil_append]
        rw [utf8DecodeFirst]
        rw [if_neg (by omega), if_neg (by omega), if_neg (by omega), if_neg (by omega),
            if_pos (by omega)]
        simp only [contByte]
        rw [if_pos (by simp only [Bool.and_eq_true, decide_eq_true_eq]; omega)]
        rw [if_pos (by constructor <;> omega)]
        congr 1
        congr 1
        omega

theorem length_le_length_encodeList (cs : List Nat) :
    cs.length ≤ (encodeList cs).length := by
  induction cs with
  | nil => simp [encodeList]
  | cons c cs ih =>
    have h1 := utf8Len_pos c
    have h2 := length_encodeChar c
    simp only [encodeList, List.length_append, List.length_cons]
    omega

theorem length_encodeList_filter (p : Nat → Bool) (cs : List Nat) :
    (encodeList (cs.filter p)).length +
      (encodeList (cs.filter fun c => ! p c)).length = (encodeList cs).length := by
  induction cs with
  | nil => simp [encodeList]
  | cons c cs ih =>
    by_cases h : p c <;>
      simp only [List.filter_cons, h, Bool.not_true, Bool.not_false, if_pos, if_neg,
        Bool.false_eq_true, ite_true, ite_false, encodeList, List.length_append] <;>
      omega

/-! ## Correctness of the `retain` pass

The loop invariant: the buffer splits as `done ++ gap ++ encodeList cs ++ tl`
where `done` holds the already-compacted survivors, `gap` is the `del`-byte
region of dead bytes the cursor has skipped, `cs` are the characters not yet
examined, and `tl` is whatever lies beyond the logical length. -/

theorem retainLoop_spec (p : Nat → Bool) :
    ∀ (cs : List Nat) (fuel : Nat) (done gap tl buf : List Nat) (len idx del : Nat),
      (∀ c ∈ cs, isValidScalar c = true) → cs.length ≤ fuel →
      buf = done ++ gap ++ encodeList cs ++ tl →
      len = done.length + gap.length + (encodeList cs).length →
      idx = done.length + gap.length →
      del = gap.length →
      ∃ rest, retainLoop p fuel buf len idx del
        = (done ++ encodeList (cs.filter p) ++ rest,
           gap.length + (encodeList (cs.filter fun c => ! p c)).length) := by
  intro cs
  induction cs with
  | nil =>
    intro fuel done gap tl buf len idx del _ _ hbuf hlen hidx hdel
    subst hbuf hlen hidx hdel
    refine ⟨gap ++ tl, ?_⟩
    cases fuel with
    | zero => simp [retainLoop, encodeList]
    | succ f => simp [retainLoop, encodeList]
  | cons c cs ih =>
    intro fuel done gap tl buf len idx del hv hfuel hbuf hlen hidx hdel
    cases fuel with
    | zero => simp at hfuel
    | succ f =>
      subst hbuf hlen hidx hdel
      have hw := length_encodeChar c
      have hw1 := utf8Len_pos c
      have hvc : isValidScalar c = true := hv c (by simp)
      have hvcs : ∀ x ∈ cs, isValidScalar x = true := fun x hx => hv x (by simp [hx])
      have hfuel' : cs.length ≤ f := by simpa using hfuel
      have hassoc : done ++ gap ++ encodeList (c :: cs) ++ tl
          = (done ++ gap) ++ (encodeList (c :: cs) ++ tl) := by
        simp [List.append_assoc]
      have hdg : done.length + gap.length = (done ++ gap).length := by simp
      have hdrop : (done ++ gap ++ encodeList (c :: cs) ++ tl).drop (done.length + gap.length)
          = encodeList (c :: cs) ++ tl := by
        rw [hassoc, hdg, List.drop_left]
      have hlt : done.length + gap.length <
          done.length + gap.length + (encodeList (c :: cs)).length := by
        simp only [encodeList, List.length_append]
        omega
      have harg : ((done ++ gap ++ encodeList (c :: cs) ++ tl).drop
              (done.length + gap.length)).take
            (done.length + gap.length + (encodeList (c :: cs)).length -
              (done.length + gap.length))
          = encodeList (c :: cs) := by
        rw [hdrop, Nat.add_sub_cancel_left]
        exact List.take_left _ _
      have hdec : utf8DecodeFirst
          (((done ++ gap ++ encodeList (c :: cs) ++ tl).drop (done.length + gap.length)).take
            (done.length + gap.length + (encodeList (c :: cs)).length -
              (done.length + gap.length)))
          = some (c, utf8Len c) := by
        rw [harg]
        show utf8DecodeFirst (encodeChar c ++ encodeList cs) = some (c, utf8Len c)
        exact utf8DecodeFirst_encodeChar c hvc (encodeList cs)
      rw [retainLoop, if_pos hlt, hdec]
      dsimp only
      by_cases hp : p c
      · -- the character is kept
        rw [if_neg (by simp [hp])]
        by_cases hgap : 0 < gap.length
        · -- survivors must be moved `del` bytes to the left
          rw [if_pos hgap]
          have hslice : ((done ++ gap ++ encodeList (c :: cs) ++ tl).drop
                (done.length + gap.length)).take (utf8Len c) = encodeChar c := by
            rw [hdrop]
            show ((encodeChar c ++ encodeList cs) ++ tl).take (utf8Len c) = encodeChar c
            rw [List.append_assoc, ← hw, List.take_left]
          rw [hslice]
          have hidx' : done.length + gap.length - gap.length = done.length := by omega
          have hbuf' : writeBytes (done ++ gap ++ encodeList (c :: cs) ++ tl)
                (done.length + gap.length - gap.length) (encodeChar c)
              = (done ++ encodeChar c) ++ ((gap ++ encodeChar c).drop (utf8Len c)) ++
                  encodeList cs ++ tl := by
            rw [hidx']
            unfold writeBytes
            have ht : (done ++ gap ++ encodeList (c :: cs) ++ tl).take done.length = done := by
              rw [show done ++ gap ++ encodeList (c :: cs) ++ tl
                    = done ++ (gap ++ encodeList (c :: cs) ++ tl) by simp [List.append_assoc]]
              exact List.take_left done _
            have hd : (done ++ gap ++ encodeList (c :: cs) ++ tl).drop
                  (done.length + (encodeChar c).length)
                = ((gap ++ encodeChar c).drop (utf8Len c)) ++ encodeList cs ++ tl := by
              rw [show done ++ gap ++ encodeList (c :: cs) ++ tl
                    = done ++ ((gap ++ encodeChar c) ++ (encodeList cs ++ tl)) by
                  simp [encodeList, List.append_assoc]]
              rw [List.drop_append_eq_append_drop]
              rw [List.drop_append_eq_append_drop]
              have hld : done.length + (encodeChar c).length - done.length
                  = utf8Len c := by omega
              rw [List.drop_of_length_le (by omega), hld]
              have hld2 : utf8Len c - (gap ++ encodeChar c).length = 0 := by
                simp only [List.length_append]
                omega
              rw [hld2]
              simp [List.append_assoc]
            rw [ht, hd]
            simp [List.append_assoc]
          rw [hbuf']
          have hglen : ((gap ++ encodeChar c).drop (utf8Len c)).length = gap.length := by
            simp only [List.length_drop, List.length_append]
            omega
          obtain ⟨rest, hres⟩ := ih f (done ++ encodeChar c)
            ((gap ++ encodeChar c).drop (utf8Len c)) tl
            ((done ++ encodeChar c) ++ ((gap ++ encodeChar c).drop (utf8Len c)) ++
              encodeList cs ++ tl)
            (done.length + gap.length + (encodeList (c :: cs)).length)
            (done.length + gap.length + utf8Len c) gap.length hvcs hfuel' rfl
            (by simp only [List.length_append, hglen, hw, encodeList]; omega)
            (by simp only [List.length_append, hglen, hw]; omega)
            (by rw [hglen])
          refine ⟨rest, ?_⟩
          rw [hres]
          simp only [List.filter_cons, hp, if_pos, Bool.not_true, Bool.false_eq_true,
            ite_true, ite_false, encodeList, List.append_assoc, hglen]
        · -- nothing deleted yet: the survivor stays in place
          rw [if_neg hgap]
          have hgapnil : gap = [] := by
            cases gap with
            | nil => rfl
            | cons a l => simp at hgap
          subst hgapnil
          obtain ⟨rest, hres⟩ := ih f (done ++ encodeChar c) [] tl
            (done ++ [] ++ encodeList (c :: cs) ++ tl)
            (done.length + List.length ([] : List Nat) + (encodeList (c :: cs)).length)
            (done.length + List.length ([] : List Nat) + utf8Len c)
            (List.length ([] : List Nat)) hvcs hfuel'
            (by simp [encodeList, List.append_assoc])
            (by simp only [List.length_append, List.length_nil, hw, encodeList]; omega)
            (by simp only [List.length_append, List.length_nil, hw]; omega)
            (by simp)
          refine ⟨rest, ?_⟩
          rw [hres]
          simp only [List.filter_cons, hp, if_pos, Bool.not_true, Bool.false_eq_true,
            ite_true, ite_false, encodeList, List.append_assoc, List.length_nil]
      · -- the character is dropped: it joins the gap
        rw [if_pos (by simp [hp])]
        obtain ⟨rest, hres⟩ := ih f done (gap ++ encodeChar c) tl
          (done ++ gap ++ encodeList (c :: cs) ++ tl)
          (done.length + gap.length + (encodeList (c :: cs)).length)
          (done.length + gap.length + utf8Len c) (gap.length + utf8Len c) hvcs hfuel'
          (by simp [encodeList, List.append_assoc])
          (by simp only [List.length_append, hw, encodeList]; omega)
          (by simp only [List.length_append, hw]; omega)
          (by simp only [List.length_append, hw])
        refine ⟨rest, ?_⟩
        rw [hres]
        have hfp : (c :: cs).filter p = cs.filter p := by simp [List.filter_cons, hp]
        have hfn : (c :: cs).filter (fun x => ! p x) = c :: cs.filter (fun x => ! p x) := by
          simp [List.filter_cons, hp]
        rw [hfp, hfn]
        simp only [encodeList, List.length_append, hw]
        congr 1
        omega

/-- When every remaining character is kept and nothing has been deleted
yet, the pass leaves the buffer untouched and deletes nothing. -/
theorem retainLoop_keepAll (p : Nat → Bool) :
    ∀ (cs : List Nat) (fuel : Nat) (done tl buf : List Nat) (len idx : Nat),
      (∀ c ∈ cs, isValidScalar c = true) → (∀ c ∈ cs, p c = true) → cs.length ≤ fuel →
      buf = done ++ encodeList cs ++ tl →
      len = done.length + (encodeList cs).length →
      idx = done.length →
      retainLoop p fuel buf len idx 0 = (buf, 0) := by
  intro cs
  induction cs with
  | nil =>
    intro fuel done tl buf len idx _ _ _ hbuf hlen hidx
    subst hbuf hlen hidx
    cases fuel with
    | zero => simp [retainLoop]
    | succ f => simp [retainLoop, encodeList]
  | cons c cs ih =>
    intro fuel done tl buf len idx hv hp hfuel hbuf hlen hidx
    cases fuel with
    | zero => simp at hfuel
    | succ f =>
      subst hbuf hlen hidx
      have hw := length_encodeChar c
      have hw1 := utf8Len_pos c
      have hvc : isValidScalar c = true := hv c (by simp)
      have hpc : p c = true := hp c (by simp)
      have hvcs : ∀ x ∈ cs, isValidScalar x = true := fun x hx => hv x (by simp [hx])
      have hpcs : ∀ x ∈ cs, p x = true := fun x hx => hp x (by simp [hx])
      have hfuel' : cs.length ≤ f := by simpa using hfuel
      have hlt : done.length < done.length + (encodeList (c :: cs)).length := by
        simp only [encodeList, List.length_append]
        omega
      have hdrop : (done ++ encodeList (c :: cs) ++ tl).drop done.length
          = encodeList (c :: cs) ++ tl := by
        rw [show done ++ encodeList (c :: cs) ++ tl
              = done ++ (encodeList (c :: cs) ++ tl) by simp [List.append_assoc]]
        exact List.drop_left done _
      have hdec : utf8DecodeFirst
          (((done ++ encodeList (c :: cs) ++ tl).drop done.length).take
            (done.length + (encodeList (c :: cs)).length - done.length))
          = some (c, utf8Len c) := by
        rw [hdrop, Nat.add_sub_cancel_left, List.take_left]
        show utf8DecodeFirst (encodeChar c ++ encodeList cs) = some (c, utf8Len c)
        exact utf8DecodeFirst_encodeChar c hvc (encodeList cs)
      rw [retainLoop, if_pos hlt, hdec]
      dsimp only
      rw [if_neg (by simp [hpc]), if_neg (by omega)]
      have := ih f (done ++ encodeChar c) tl
        (done ++ encodeList (c :: cs) ++ tl)
        (done.length + (encodeList (c :: cs)).length)
        (done.length + utf8Len c) hvcs hpcs hfuel'
        (by simp [encodeList, List.append_assoc])
        (by simp only [List.length_append, hw, encodeList]; omega)
        (by simp only [List.length_append, hw])
      exact this

/-! ## Structural facts about the representation -/

theorem setData_self (s : String) : s.inner.setData s.buf = s.inner := by
  cases s with
  | mk l i => cases i <;> rfl

theorem buf_setData (l : Nat) (i : Inner) (b : List Nat) :
    (String.mk l (i.setData b)).buf = b := by
  cases i <;> rfl

theorem capacity_setData (l l' : Nat) (i : Inner) (b : List Nat) :
    (String.mk l (i.setData b)).capacity = (String.mk l' i).capacity := by
  cases i <;> rfl

theorem overflowed_setData (l l' : Nat) (i : Inner) (b : List Nat) :
    (String.mk l (i.setData b)).overflowed = (String.mk l' i).overflowed := by
  cases i <;> rfl

theorem pop_overflowed (s : String) : (s.pop).2.overflowed = s.overflowed := by
  unfold String.pop
  split <;> rfl

theorem truncate_overflowed (s : String) (n : Nat) :
    ((s.truncate n).getD s).overflowed = s.overflowed := by
  unfold String.truncate
  split
  · split <;> rfl
  · rfl

theorem remove_overflowed (s : String) (idx ch : Nat) (t : String)
    (h : s.remove idx = .ok (ch, t)) : t.overflowed = s.overflowed := by
  unfold String.remove at h
  split at h
  · split at h
    · simp at h
    · rw [Outcome.ok.injEq, Prod.mk.injEq] at h
      obtain ⟨-, ht⟩ := h
      rw [← ht]
      exact overflowed_setData _ s.len _ _
  · simp at h

theorem retain_overflowed (s : String) (p : Nat → Bool) :
    (s.retain p).overflowed = s.overflowed := by
  unfold String.retain
  exact overflowed_setData _ s.len _ _

theorem retain_capacity (s : String) (p : Nat → Bool) :
    (s.retain p).capacity = s.capacity := by
  unfold String.retain
  exact capacity_setData _ s.len _ _

/-- No single public mutation ever converts heap storage back to the
stack. -/
theorem applyOp_preserves_heap (op : Op) (s : String) (h : s.overflowed = true) :
    (applyOp op s).overflowed = true := by
  cases op with
  | push c =>
    obtain ⟨l, i⟩ := s
    cases i with
    | Stack d => simp [String.overflowed] at h
    | Heap cap d =>
      simp only [applyOp, String.push]
      split <;> rfl
  | push_str item =>
    obtain ⟨l, i⟩ := s
    cases i with
    | Stack d => simp [String.overflowed] at h
    | Heap cap d =>
      simp only [applyOp, String.push_str]
      split <;> rfl
  | pop =>
    simpa only [applyOp, pop_overflowed] using h
  | remove idx =>
    simp only [applyOp]
    cases hr : s.remove idx with
    | ok a =>
      obtain ⟨ch, t⟩ := a
      exact (remove_overflowed s idx ch t hr).trans h
    | err e => exact h
    | panic => exact h
  | retain p =>
    simpa only [applyOp, retain_overflowed] using h
  | truncate n =>
    simpa only [applyOp, truncate_overflowed] using h
  | clear =>
    simpa only [applyOp, String.clear, truncate_overflowed] using h
  | reserve n =>
    obtain ⟨l, i⟩ := s
    cases i with
    | Stack d => simp [String.overflowed] at h
    | Heap cap d =>
      simp only [applyOp, String.reserve]
      split <;> rfl
  | shrink_to_fit =>
    obtain ⟨l, i⟩ := s
    cases i with
    | Stack d => simp [String.overflowed] at h
    | Heap cap d => rfl

/-! ## The claims -/

/-- C1: the claim states that after every public operation a heap string
satisfies `length ≤ capacity` and `capacity > 0`; the code violates both.
Constructing from a host std string of capacity 0 yields heap storage with
capacity 0; `shrink_to_fit` on an empty heap string reallocates to
capacity 0; and `push` of the 3-byte character U+20AC onto a heap string
of capacity 1 doubles the capacity to only 2 while the length becomes 3
(in the real program this writes past the end of the allocation). -/
theorem C1_heap_invariant_violated :
    ((String.from_string ⟨[], 0⟩).overflowed = true ∧
      (String.from_string ⟨[], 0⟩).capacity = 0) ∧
    ((((String.with_capacity 5).getD String.new).shrink_to_fit).overflowed = true ∧
      (((String.with_capacity 5).getD String.new).shrink_to_fit).capacity = 0) ∧
    ((((String.with_capacity 1).getD String.new).push 0x20AC).overflowed = true ∧
      (((String.with_capacity 1).getD String.new).push 0x20AC).len = 3 ∧
      (((String.with_capacity 1).getD String.new).push 0x20AC).capacity = 2) := by
  decide

/-- C2: monotonic escalation — once a string's storage is on the heap
(`overflowed() == true`), every sequence of public mutations (push,
push_str, pop, remove, retain, truncate, clear, reserve, shrink_to_fit)
leaves it on the heap; no operation converts heap storage back to inline,
even when the length returns to 0. -/
theorem C2_monotonic_escalation (ops : List Op) (s : String) (h : s.overflowed = true) :
    (runOps ops s).overflowed = true := by
  induction ops generalizing s with
  | nil => exact h
  | cons op ops ih => exact ih (applyOp op s) (applyOp_preserves_heap op s h)

/-- Witness for C2: a heap string of capacity 5 stays on the heap through
a push, a bulk append, a clear, a drop-everything retain, a shrink to
length 0, a pop and a reserve. -/
theorem C2_monotonic_escalation_witness :
    (runOps [Op.push 97, Op.push_str [98, 99], Op.clear, Op.retain (fun _ => false),
        Op.shrink_to_fit, Op.pop, Op.truncate 0, Op.reserve 1, Op.remove 0]
      ((String.with_capacity 5).getD String.new)).overflowed = true :=
  C2_monotonic_escalation _ _ (by decide)

/-- C6 counterexample: `with_capacity(0)` does not surface a recoverable
`InvalidArgument` error to the caller — the `assert!(capacity != 0)` in
the source panics instead. -/
theorem C6_with_capacity_zero_counterexample :
    String.with_capacity 0 = Outcome.panic ∧
    String.with_capacity 0 ≠ Outcome.err ErrKind.invalidArgument := by
  decide

/-- C6 (amended): `with_capacity(n)` has precondition `n > 0` and panics
(assertion failure, not a recoverable error) when `n == 0`; for every
`n > 0` it returns a string with heap storage, capacity exactly `n` and
length 0. -/
theorem C6_with_capacity_spec (n : Nat) (h : 0 < n) :
    String.with_capacity n = .ok { len := 0, inner := .Heap n (allocBuf n) } ∧
    ((String.with_capacity n).getD String.new).overflowed = true ∧
    ((String.with_capacity n).getD String.new).capacity = n ∧
    ((String.with_capacity n).getD String.new).len = 0 ∧
    String.with_capacity 0 = .panic := by
  have hne : n ≠ 0 := by omega
  unfold String.with_capacity
  rw [if_pos hne]
  exact ⟨rfl, rfl, rfl, rfl, by decide⟩

/-- Witness for C6 at `n = 7`. -/
theorem C6_with_capacity_spec_witness :
    String.with_capacity 7 = .ok { len := 0, inner := .Heap 7 (allocBuf 7) } ∧
    ((String.with_capacity 7).getD String.new).overflowed = true ∧
    ((String.with_capacity 7).getD String.new).capacity = 7 ∧
    ((String.with_capacity 7).getD String.new).len = 0 ∧
    String.with_capacity 0 = .panic :=
  C6_with_capacity_spec 7 (by decide)

/-- C7: growth-policy asymmetry of `push`.  A stack string that would
exceed 23 bytes escalates to a heap buffer of capacity exactly 32; a heap
string whose new length exceeds the capacity doubles it (exactly
`capacity * 2`); a heap push that still fits leaves the capacity alone. -/
theorem C7_push_growth (s : String) (c : Nat) (d : List Nat) (cap : Nat)
    (hc : isValidScalar c = true) :
    (s.inner = .Stack d → 23 < s.len + utf8Len c →
      (s.push c).overflowed = true ∧ (s.push c).capacity = 32) ∧
    (s.inner = .Heap cap d → cap < s.len + utf8Len c →
      (s.push c).overflowed = true ∧ (s.push c).capacity = cap * 2) ∧
    (s.inner = .Heap cap d → s.len + utf8Len c ≤ cap →
      (s.push c).capacity = cap) := by
  refine ⟨?_, ?_, ?_⟩
  · intro hi hgt
    unfold String.push
    rw [hi]
    dsimp only
    rw [if_neg (by omega)]
    exact ⟨rfl, rfl⟩
  · intro hi hgt
    unfold String.push
    rw [hi]
    dsimp only
    rw [if_pos (by omega)]
    exact ⟨rfl, rfl⟩
  · intro hi hle
    unfold String.push
    rw [hi]
    dsimp only
    rw [if_neg (by omega)]
    rfl

/-- Witness for C7: a full 23-byte stack string escalates to capacity 32
on a push; `with_capacity(10)` followed by ten 1-byte pushes still has
capacity 10, and an eleventh 1-byte push makes the capacity 20. -/
theorem C7_push_growth_witness :
    ((String.fromStr (List.replicate 23 97)).push 98).capacity = 32 ∧
    ((String.fromStr (List.replicate 23 97)).push 98).overflowed = true ∧
    ((List.replicate 10 97).foldl (fun t c => t.push c)
        ((String.with_capacity 10).getD String.new)).capacity = 10 ∧
    (((List.replicate 10 97).foldl (fun t c => t.push c)
        ((String.with_capacity 10).getD String.new)).push 97).capacity = 20 := by
  have h1 := C7_push_growth (String.fromStr (List.replicate 23 97)) 98
    (List.replicate 23 97) 0 (by decide)
  have h2 := C7_push_growth ((List.replicate 10 97).foldl (fun t c => t.push c)
    ((String.with_capacity 10).getD String.new)) 97 (List.replicate 10 97) 10 (by decide)
  refine ⟨(h1.1 (by decide) (by decide)).2, (h1.1 (by decide) (by decide)).1, by decide, ?_⟩
  have h3 := (h2.2.1 (by decide) (by decide)).2
  simpa using h3

/-- C3 counterexample: the 2-byte valid UTF-8 vector `[104, 105]` ingested
through `from_utf8` does not become an inline string of capacity 23 — it
is adopted as heap storage with capacity 2. -/
theorem C3_ingestion_counterexample :
    ValidUtf8 [104, 105] ∧
    (String.from_utf8 ⟨[104, 105], 2⟩).toOption.map
        (fun s => (s.overflowed, s.capacity)) = some (true, 2) ∧
    ((2 : Nat) ≤ 23) := by
  decide

/-- C3 (amended): for ingestion through the copying `From<&str>`
constructor, a valid UTF-8 input of byte length at most 23 yields an
inline string of capacity 23, and a longer input (of length at most
`2 ^ 63`, below which the power-of-two computation cannot overflow)
yields a heap string whose capacity is the smallest power of two at least
the length.  (Ingestion through `from_utf8` instead always adopts the
vector as heap storage with capacity equal to the length.) -/
theorem C3_fromStr_representation (bs : List Nat) (hv : ValidUtf8 bs) :
    (bs.length ≤ 23 →
      (String.fromStr bs).overflowed = false ∧ (String.fromStr bs).capacity = 23) ∧
    (23 < bs.length → bs.length ≤ 2 ^ 63 →
      (String.fromStr bs).overflowed = true ∧
      IsSmallestPow2Ge (String.fromStr bs).capacity bs.length) := by
  constructor
  · intro hle
    unfold String.fromStr
    rw [if_pos hle]
    exact ⟨rfl, rfl⟩
  · intro hgt hbound
    unfold String.fromStr
    rw [if_neg (by omega)]
    refine ⟨rfl, ?_⟩
    show IsSmallestPow2Ge (growTarget bs.length) bs.length
    rw [growTarget_eq_nextPow2 _ hbound]
    exact isSmallestPow2Ge_nextPow2 _

/-- Witness for C3: the 26-byte ASCII alphabet ingested via `From<&str>`
is on the heap with capacity 32. -/
theorem C3_fromStr_representation_witness :
    (String.fromStr [97, 98, 99, 100, 101, 102, 103, 104, 105, 106, 107, 108, 109,
        110, 111, 112, 113, 114, 115, 116, 117, 118, 119, 120, 121, 122]).overflowed = true ∧
    (String.fromStr [97, 98, 99, 100, 101, 102, 103, 104, 105, 106, 107, 108, 109,
        110, 111, 112, 113, 114, 115, 116, 117, 118, 119, 120, 121, 122]).capacity = 32 := by
  have h := C3_fromStr_representation [97, 98, 99, 100, 101, 102, 103, 104, 105, 106,
    107, 108, 109, 110, 111, 112, 113, 114, 115, 116, 117, 118, 119, 120, 121, 122]
    (by decide)
  exact ⟨(h.2 (by decide) (by decide)).1, by decide⟩

/-- C4 counterexample: `from_utf8` of a valid 1-byte vector whose
allocation has capacity 8 does not keep that capacity — the vector is
first shrunk to its length by `into_boxed_slice`, so the resulting
capacity is 1. -/
theorem C4_from_utf8_capacity_counterexample :
    ValidUtf8 [104] ∧
    (String.from_utf8 ⟨[104], 8⟩).toOption.map String.capacity = some 1 ∧
    (1 : Nat) ≠ 8 := by
  decide

/-- C4 (amended): both ingestion paths adopt the vector's bytes as heap
storage with length equal to the source length, but only
`from_utf8_unchecked` keeps the source allocation's capacity;
`from_utf8` shrinks the allocation to the length first
(`into_boxed_slice`), so its resulting capacity equals the length. -/
theorem C4_adoption (v : RustVec) (hv : ValidUtf8 v.data) :
    String.from_utf8 v = .ok { len := v.data.length, inner := .Heap v.data.length v.data } ∧
    (String.from_utf8_unchecked v).overflowed = true ∧
    (String.from_utf8_unchecked v).capacity = v.capacity ∧
    (String.from_utf8_unchecked v).len = v.data.length ∧
    (v.data.length ≤ v.capacity →
      (String.from_utf8_unchecked v).logicalBytes = v.data) := by
  refine ⟨?_, rfl, rfl, rfl, ?_⟩
  · unfold String.from_utf8
    rw [show utf8Validate v.data = none from hv]
  · intro hle
    unfold String.from_utf8_unchecked String.logicalBytes String.buf
    dsimp only
    exact List.take_left _ _

/-- Witness for C4 at the vector `[104, 105]` with capacity 7. -/
theorem C4_adoption_witness :
    String.from_utf8 ⟨[104, 105], 7⟩
        = .ok { len := 2, inner := .Heap 2 [104, 105] } ∧
    (String.from_utf8_unchecked ⟨[104, 105], 7⟩).capacity = 7 ∧
    (String.from_utf8_unchecked ⟨[104, 105], 7⟩).len = 2 ∧
    (String.from_utf8_unchecked ⟨[104, 105], 7⟩).logicalBytes = [104, 105] := by
  have h := C4_adoption ⟨[104, 105], 7⟩ (by decide)
  exact ⟨h.1, h.2.2.1, h.2.2.2.1, h.2.2.2.2 (by decide)⟩

/-- C5 counterexample: `into_bytes` of the inline 5-byte string built from
the bytes of the word hello returns a 23-byte vector (the whole inline
array is copied), not a 5-byte one. -/
theorem C5_into_bytes_counterexample :
    (String.fromStr [104, 101, 108, 108, 111]).overflowed = false ∧
    (String.fromStr [104, 101, 108, 108, 111]).len = 5 ∧
    (String.fromStr [104, 101, 108, 108, 111]).into_bytes.data.length = 23 ∧
    (23 : Nat) ≠ 5 := by
  decide

/-- C5 (amended): `into_bytes` on an inline string allocates a new buffer
and copies the entire 23-byte inline array (`extend_from_slice(data)`),
so the returned vector has length 23 (INLINE_CAPACITY), its first
`length` bytes are the string's logical bytes, and the remaining bytes
are whatever the inline array holds past the length. -/
theorem C5_into_bytes_inline (s : String) (d : List Nat) (h : s.inner = .Stack d)
    (hd : d.length = 23) :
    s.into_bytes.data = d ∧
    s.into_bytes.data.length = 23 ∧
    s.into_bytes.data.take s.len = s.logicalBytes ∧
    s.into_bytes.capacity = 23 := by
  unfold String.into_bytes
  rw [h]
  dsimp only
  refine ⟨rfl, hd, ?_, rfl⟩
  unfold String.logicalBytes String.buf
  rw [h]

/-- Witness for C5 at the inline string built from the bytes of hello. -/
theorem C5_into_bytes_inline_witness :
    (String.fromStr [104, 101, 108, 108, 111]).into_bytes.data
        = [104, 101, 108, 108, 111] ++ List.replicate 18 0 ∧
    (String.fromStr [104, 101, 108, 108, 111]).into_bytes.data.length = 23 ∧
    (String.fromStr [104, 101, 108, 108, 111]).into_bytes.data.take
        (String.fromStr [104, 101, 108, 108, 111]).len
      = (String.fromStr [104, 101, 108, 108, 111]).logicalBytes ∧
    (String.fromStr [104, 101, 108, 108, 111]).into_bytes.capacity = 23 := by
  have h := C5_into_bytes_inline (String.fromStr [104, 101, 108, 108, 111])
    ([104, 101, 108, 108, 111] ++ List.replicate 18 0) (by decide) (by decide)
  exact ⟨h.1, h.2.1, h.2.2.1, h.2.2.2⟩

/-- C9: when `from_utf8` is given ill-formed bytes (the validator reports
first invalid offset `i`), it returns an error carrying the original
vector unchanged (ownership back to the caller) together with that
offset, and `into_bytes` / `valid_up_to` on the error recover exactly
those two pieces. -/
theorem C9_from_utf8_error (v : RustVec) (i : Nat) (h : utf8Validate v.data = some i) :
    String.from_utf8 v = .error { bytes := v, validUpTo := i } ∧
    (FromUtf8Error.mk v i).into_bytes = v ∧
    (FromUtf8Error.mk v i).valid_up_to = i := by
  refine ⟨?_, rfl, rfl⟩
  unfold String.from_utf8
  rw [h]

/-- Witness for C9: `from_utf8([0x00, 0x9F])` fails with first invalid
byte at offset 1 (the prefix `[0x00]` is valid, the whole is not) and the
recovered bytes are exactly `[0x00, 0x9F]`. -/
theorem C9_from_utf8_error_witness :
    utf8Validate [0x00, 0x9F] = some 1 ∧
    String.from_utf8 ⟨[0x00, 0x9F], 2⟩
        = .error { bytes := ⟨[0x00, 0x9F], 2⟩, validUpTo := 1 } ∧
    (FromUtf8Error.mk ⟨[0x00, 0x9F], 2⟩ 1).into_bytes = ⟨[0x00, 0x9F], 2⟩ ∧
    (FromUtf8Error.mk ⟨[0x00, 0x9F], 2⟩ 1).valid_up_to = 1 ∧
    ValidUtf8 [0x00] ∧ ¬ ValidUtf8 [0x00, 0x9F] := by
  have h := C9_from_utf8_error ⟨[0x00, 0x9F], 2⟩ 1 (by decide)
  exact ⟨by decide, h.1, h.2.1, h.2.2, by decide, by decide⟩

/-- C8: cloning deep-copies the logical content and re-optimises the
representation.  An inline source clones to an inline string; a heap
source whose length fits inline (≤ 23) clones to an inline string (the
source, being only read, stays heap-allocated); a longer heap source
clones to a heap string of the same capacity.  In every case the clone
has the same length and the same logical bytes as the source. -/
theorem C8_clone (s : String) (hwf : s.len ≤ s.buf.length) :
    s.clone.len = s.len ∧
    s.clone.logicalBytes = s.logicalBytes ∧
    (s.overflowed = false → s.clone.overflowed = false) ∧
    (s.overflowed = true → s.len ≤ 23 → s.clone.overflowed = false) ∧
    (s.overflowed = true → 23 < s.len →
      s.clone.overflowed = true ∧ s.clone.capacity = s.capacity) := by
  obtain ⟨l, i⟩ := s
  cases i with
  | Stack d =>
    exact ⟨rfl, rfl, fun _ => rfl,
      fun hh _ => by simp [String.overflowed] at hh,
      fun hh _ => by simp [String.overflowed] at hh⟩
  | Heap cap d =>
    have hwf' : l ≤ d.length := by simpa [String.buf] using hwf
    have htake : ∀ rep : List Nat, (d.take l ++ rep).take l = d.take l := by
      intro rep
      rw [List.take_append_of_le_length (by simp [List.length_take]; omega)]
      exact List.take_of_length_le (by simp [List.length_take])
    by_cases hle : l ≤ 23
    · unfold String.clone String.logicalBytes String.buf
      dsimp only
      rw [if_pos hle]
      dsimp only
      refine ⟨rfl, htake _, fun hh => by simp [String.overflowed] at hh, fun _ _ => rfl,
        fun _ hgt => absurd hgt (by omega)⟩
    · unfold String.clone String.logicalBytes String.buf
      dsimp only
      rw [if_neg hle]
      dsimp only
      exact ⟨rfl, htake _, fun hh => by simp [String.overflowed] at hh,
        fun _ hl => absurd hl hle, fun _ _ => ⟨rfl, rfl⟩⟩

/-- Witness for C8: a heap string of length 2 and capacity 4 clones to an
inline string with the same content while the source stays on the heap. -/
theorem C8_clone_witness :
    (String.from_string ⟨[104, 105], 4⟩).clone.len
        = (String.from_string ⟨[104, 105], 4⟩).len ∧
    (String.from_string ⟨[104, 105], 4⟩).clone.logicalBytes
        = (String.from_string ⟨[104, 105], 4⟩).logicalBytes ∧
    (String.from_string ⟨[104, 105], 4⟩).clone.overflowed = false ∧
    (String.from_string ⟨[104, 105], 4⟩).overflowed = true := by
  have h := C8_clone (String.from_string ⟨[104, 105], 4⟩) (by decide)
  exact ⟨h.1, h.2.1, h.2.2.2.1 (by decide) (by decide), by decide⟩

/-- C10: `retain` with the constantly-true predicate is the identity on
the whole string (content, length, representation and capacity);
`retain` with the constantly-false predicate leaves length 0 with the
capacity unchanged; and in general `retain p` keeps exactly the
characters satisfying `p` in their original order (the logical bytes
become the encoding of the filtered character sequence) and never
changes — in particular never reduces — the capacity. -/
theorem C10_retain (s : String) (cs tl : List Nat) (p : Nat → Bool)
    (hv : ∀ c ∈ cs, isValidScalar c = true)
    (hbuf : s.buf = encodeList cs ++ tl)
    (hlen : s.len = (encodeList cs).length) :
    s.retain (fun _ => true) = s ∧
    (s.retain (fun _ => false)).len = 0 ∧
    (s.retain (fun _ => false)).capacity = s.capacity ∧
    (s.retain p).logicalBytes = encodeList (cs.filter p) ∧
    (s.retain p).len = (encodeList (cs.filter p)).length ∧
    (s.retain p).capacity = s.capacity ∧
    (s.retain p).overflowed = s.overflowed := by
  have hfuel : cs.length ≤ s.len := by
    have := length_le_length_encodeList cs
    omega
  have hpart := length_encodeList_filter p cs
  refine ⟨?_, ?_, retain_capacity s _, ?_, ?_, retain_capacity s _, retain_overflowed s _⟩
  · -- constantly-true: full identity
    have hkeep := retainLoop_keepAll (fun _ => true) cs s.len [] tl s.buf s.len 0
      hv (fun _ _ => rfl) hfuel (by simpa using hbuf) (by simpa using hlen) (by simp)
    unfold String.retain
    rw [hkeep]
    dsimp only
    rw [Nat.sub_zero, setData_self]
  · -- constantly-false: length drops to 0
    obtain ⟨rest0, hres0⟩ := retainLoop_spec (fun _ => false) cs s.len [] [] tl s.buf
      s.len 0 0 hv hfuel (by simpa using hbuf) (by simpa using hlen) rfl rfl
    unfold String.retain
    rw [hres0]
    dsimp only
    have hfn : (cs.filter fun c => ! (fun _ : Nat => false) c) = cs := by
      simp
    rw [hfn]
    omega
  · -- logical bytes of the general retain
    obtain ⟨rest, hres⟩ := retainLoop_spec p cs s.len [] [] tl s.buf
      s.len 0 0 hv hfuel (by simpa using hbuf) (by simpa using hlen) rfl rfl
    unfold String.retain
    rw [hres]
    dsimp only
    unfold String.logicalBytes
    rw [buf_setData]
    have hlen' : s.len - (List.length ([] : List Nat) +
        (encodeList (cs.filter fun c => ! p c)).length)
        = (encodeList (cs.filter p)).length := by
      simp only [List.length_nil]
      omega
    rw [hlen']
    simp only [List.nil_append]
    exact List.take_left _ _
  · -- length of the general retain
    obtain ⟨rest, hres⟩ := retainLoop_spec p cs s.len [] [] tl s.buf
      s.len 0 0 hv hfuel (by simpa using hbuf) (by simpa using hlen) rfl rfl
    unfold String.retain
    rw [hres]
    dsimp only
    simp only [List.length_nil]
    omega

/-- Witness for C10 on the inline string with bytes `[97, 98]` and the
predicate keeping only the character 97. -/
theorem C10_retain_witness :
    (String.fromStr [97, 98]).retain (fun _ => true) = String.fromStr [97, 98] ∧
    ((String.fromStr [97, 98]).retain (fun _ => false)).len = 0 ∧
    ((String.fromStr [97, 98]).retain (fun _ => false)).capacity
        = (String.fromStr [97, 98]).capacity ∧
    ((String.fromStr [97, 98]).retain (fun c => decide (c = 97))).logicalBytes
        = encodeList [97] ∧
    ((String.fromStr [97, 98]).retain (fun c => decide (c = 97))).capacity
        = (String.fromStr [97, 98]).capacity := by
  have h := C10_retain (String.fromStr [97, 98]) [97, 98] (List.replicate 21 0)
    (fun c => decide (c = 97)) (by decide) (by decide) (by decide)
  exact ⟨h.1, h.2.1, h.2.2.1, h.2.2.2.1, h.2.2.2.2.2.1⟩

end Small
